import Mathlib

/-!
# char-rnn: sequence building (`samples.go`) and generation (`lstm.go`)

A shallow embedding of the sample builder (`ReadSequences`, `seqForChunk`,
`oneHotAscii`) and of the generation loop (`LSTM.Generate`, `sampleSoftmax`).

Conventions of the embedding

* a Go `byte` is a `Fin 256`;
* a Go slice is a `List`; an index that is out of range makes the Go program
  panic, which the embedding renders as `none` (or as a `panicked` flag where
  output was already written);
* `linalg.Vector` (a `[]float64`) holds only the values `0` and `1` in
  `samples.go`; they are rendered as rationals;
* the floating-point operations of `sampleSoftmax` (the float64 subtraction
  `p -= ...`, the test `p < 0`, and `math.Exp(float64(x))`) are the fields of a
  parameter `A : FloatOps F`, with `F` the type of the floating-point values,
  so that what is proved for every `A` holds whatever the rounding and the
  special values; `exactOps` is the instance of exact arithmetic in an ordered
  field, and `float64Ops` the instance of IEEE 754 binary64 subtraction on
  finite values;
* `rand.Float64()` is a stream `rnd : ℕ → F` of which the `i`-th call reads
  entry `i`;
* `CharCount`, a constant of the package that is declared outside `lstm.go`,
  is a parameter.
-/

namespace CharRnn

/-! ## `samples.go` -/

/-- Go's `byte`. -/
abbrev Byte := Fin 256

/-- The constant `TextChunkSize`. -/
def TextChunkSize : Nat := 512

/-- The constant `ASCIICount`. -/
def ASCIICount : Nat := 128

/-- The type `linalg.Vector`. -/
abbrev Vector := List ℚ

/-- The type `rnn.Sequence`, of which only `Inputs` and `Outputs` are used. -/
structure Sequence where
  Inputs : List Vector
  Outputs : List Vector

/-- `make(linalg.Vector, n)`: a zeroed vector. -/
def makeVector (n : Nat) : Vector := List.replicate n 0

/-- The indexed store `res[i] = x`, which panics when `i` is out of range. -/
def setIndex {α : Type} (res : List α) (i : Nat) (x : α) : Option (List α) :=
  if i < res.length then some (res.set i x) else none

/-- `oneHotAscii`: allocate `ASCIICount` zeros and store `1` at `int(b)`. -/
def oneHotAscii (b : Byte) : Option Vector :=
  let res := makeVector ASCIICount
  setIndex res b.val 1

/-- The body of the `range` loop of `seqForChunk`, from index `i` on; `rest`
is what is left of `chunk` to visit. -/
def seqForChunkLoop (chunk : List Byte) : Nat → List Byte → Sequence → Option Sequence
  | _, [], res => some res
  | i, x :: rest, res =>
    match oneHotAscii x with
    | none => none
    | some o =>
      let res1 : Sequence := { res with Outputs := res.Outputs ++ [o] }
      let prev : Option Vector :=
        if i = 0 then oneHotAscii 0
        else
          match chunk[i - 1]? with
          | none => none
          | some c => oneHotAscii c
      match prev with
      | none => none
      | some inp =>
        seqForChunkLoop chunk (i + 1) rest { res1 with Inputs := res1.Inputs ++ [inp] }

/-- `seqForChunk`. -/
def seqForChunk (chunk : List Byte) : Option Sequence :=
  seqForChunkLoop chunk 0 chunk { Inputs := [], Outputs := [] }

/-- The slice expression `s[lo:hi]`, which panics unless `lo ≤ hi ≤ len(s)`. -/
def slice {α : Type} (s : List α) (lo hi : Nat) : Option (List α) :=
  if lo ≤ hi ∧ hi ≤ s.length then some ((s.take hi).drop lo) else none

/-- The chunking loop `for i := 0; i < len(textContents); i += TextChunkSize`
of `ReadSequences`, from `i` on, appending to `result`. -/
def chunkLoop (textContents : List Byte) (i : Nat) (result : List Sequence) :
    Option (List Sequence) :=
  if i < textContents.length then
    let bs := if TextChunkSize > textContents.length - i then textContents.length - i
      else TextChunkSize
    match slice textContents i (i + bs) with
    | none => none
    | some chunk =>
      match seqForChunk chunk with
      | none => none
      | some seq => chunkLoop textContents (i + TextChunkSize) (result ++ [seq])
  else some result
termination_by textContents.length - i
decreasing_by
  simp only [TextChunkSize]
  omega

/-- `strings.HasPrefix`. -/
def HasPrefix (s pre : String) : Bool :=
  pre.data.isPrefixOf s.data

/-- The loop over the directory entries of `ReadSequences`. An entry is a
file name with the bytes `ioutil.ReadFile` returns for it. -/
def readLoop : List (String × List Byte) → List Sequence → Option (List Sequence)
  | [], result => some result
  | item :: contents, result =>
    if HasPrefix item.1 "." then readLoop contents result
    else
      match chunkLoop item.2 0 result with
      | none => none
      | some result1 => readLoop contents result1

/-- `ReadSequences`, on the listing `ioutil.ReadDir` returns. -/
def ReadSequences (contents : List (String × List Byte)) : Option (List Sequence) :=
  readLoop contents []

/-! ## `lstm.go` -/

/-- The floating-point operations `sampleSoftmax` uses, on values of type `F`:
`sub` is the float64 subtraction of `p -= ...`, `ltZero` the test `p < 0`, and
`exp x` is `math.Exp(float64(x))`. -/
structure FloatOps (F : Type) where
  sub : F → F → F
  ltZero : F → Bool
  exp : F → F

/-- The `range` loop of `sampleSoftmax` from index `i` on, with `p` the running
value and the list the entries still to visit: `some i` is `return i` inside
the loop, `none` is the loop running to its end. -/
def sampleSoftmaxLoop {F : Type} (A : FloatOps F) : Nat → F → List F → Option Nat
  | _, _, [] => none
  | i, p, x :: rest =>
    let p1 := A.sub p (A.exp x)
    if A.ltZero p1 then some i else sampleSoftmaxLoop A (i + 1) p1 rest

/-- `sampleSoftmax`, with `p` the value `rand.Float64()` returns. The result
is a Go `int`. -/
def sampleSoftmax {F : Type} (A : FloatOps F) (CharCount : Nat) (p : F) (vec : List F) : Int :=
  match sampleSoftmaxLoop A 0 p vec with
  | some i => (i : Int)
  | none => (CharCount : Int) - 1

/-- The conversion `byte(ch)` of a Go `int`: the low eight bits. -/
def byteOfInt (ch : Int) : Byte :=
  ⟨(ch % 256).toNat, by omega⟩

/-- What a run of `Generate` does that can be observed: the bytes it writes to
standard output, the arguments of its calls of `Block.Step` in order, and
whether it ended in a panic. -/
structure GenTrace (σ F : Type) where
  printed : List Byte
  calls : List (σ × List F)
  panicked : Bool

/-- The loop `for i := 0; i < l.Length; i++` of `Generate`: the first argument
counts the iterations that remain, `l.Length - i`. -/
def GenerateLoop {σ F : Type} [Zero F] [One F] (A : FloatOps F) (CharCount : Nat)
    (Step : σ → List F → List F × σ) (rnd : Nat → F) :
    Nat → Nat → σ → List F → GenTrace σ F → GenTrace σ F
  | 0, _, _, _, tr => tr
  | n + 1, i, state, last, tr =>
    let res := Step state last
    let ch := sampleSoftmax A CharCount (rnd i) res.1
    let tr1 : GenTrace σ F :=
      { tr with printed := tr.printed ++ [byteOfInt ch], calls := tr.calls ++ [(state, last)] }
    let v : List F := List.replicate CharCount 0
    if 0 ≤ ch ∧ ch < (v.length : Int) then
      GenerateLoop A CharCount Step rnd n (i + 1) res.2 (v.set ch.toNat 1) tr1
    else { tr1 with panicked := true }

/-- `LSTM.Generate`: `start` is `l.Block.Start(1)`, `Step` is `l.Block.Step`
returning the pair of `res.Output()` and `res.State()`, and `Length` is
`l.Length`. The closing `fmt.Println()` writes a line feed. -/
def Generate {σ F : Type} [Zero F] [One F] (A : FloatOps F) (CharCount : Nat)
    (Step : σ → List F → List F × σ) (start : σ) (rnd : Nat → F) (Length : Int) :
    GenTrace σ F :=
  let state := start
  let last : List F := List.replicate CharCount 0
  let tr := GenerateLoop A CharCount Step rnd Length.toNat 0 state last
    { printed := [], calls := [], panicked := false }
  if tr.panicked then tr else { tr with printed := tr.printed ++ [10] }

/-! ## Two instances of the floating-point operations -/

/-- Exact arithmetic in an ordered field: no subtraction rounds. -/
def exactOps {K : Type} [LinearOrderedField K] (exp : K → K) : FloatOps K :=
  { sub := fun a b => a - b, ltZero := fun a => decide (a < 0), exp := exp }

/-- Rounding of the integer `n` to a multiple of `2^s`, to nearest, a tie going
to the multiple whose quotient by `2^s` is even. -/
def roundAt (s : Nat) (n : Int) : Int :=
  let a := n.natAbs
  let q := a / 2 ^ s
  let r := a % 2 ^ s
  let m := if 2 * r < 2 ^ s then q else if 2 ^ s < 2 * r then q + 1
    else if q % 2 = 0 then q else q + 1
  Int.sign n * ((m * 2 ^ s : Nat) : Int)

/-- Rounding to float64 of a real number given in units of `2^-1074` (the
least positive float64, of which every finite float64 is an integer multiple):
the 53 leading bits are kept, to nearest, a tie going to the even neighbour.
An integer below `2^53` in absolute value is kept as it is. The overflow to an
infinity, for results of `2^1024` and more, is left out. -/
def round53 (n : Int) : Int :=
  roundAt (Nat.log2 n.natAbs - 52) n

/-- IEEE 754 binary64 on finite values: the integer `n` stands for the float64
`n * 2^-1074` (a float64 is such an `n` with at most 53 significant bits, below
`2^2098` in absolute value), the subtraction is the exact difference rounded to
nearest (ties to even), and `exp` gives the values of `math.Exp`. NaN and the
infinities are not values of this instance. -/
def float64Ops (exp : Int → Int) : FloatOps Int :=
  { sub := fun a b => round53 (a - b), ltZero := fun a => decide (a < 0), exp := exp }

/-- The number `m / 2^k` in units of `2^-1074`. -/
def dyadic (m : Int) (k : Nat) : Int := m * ((2 ^ (1074 - k) : Nat) : Int)

/-- The values `math.Exp(float64(x))` takes at the float32 arguments `x` of the
examples below, in units of `2^-1074`: the exponential rounded to the nearest
float64 (`exp(-1000)` underflows to 0); 0 elsewhere. The arguments are -40,
-0.5, -1, then -21.097658157348633, -20.826427459716797, -21.161283493041992,
-2.2350026274153834e-09 and -1000. -/
def expTable (x : Int) : Int :=
  ([(dyadic (-40) 0, dyadic 1378669778355849 108),
    (dyadic (-1) 1, dyadic 2731571253070597 52),
    (dyadic (-1) 0, dyadic 828390857088487 51),
    (dyadic (-11061249) 19, dyadic 6651094544064039 83),
    (dyadic (-5459523) 18, dyadic 8723426708166561 83),
    (dyadic (-11094607) 19, dyadic 780137226660167 80),
    (dyadic (-10065557) 52, dyadic 4503599617304939 52),
    (dyadic (-1000) 0, 0)] : List (Int × Int)).lookup x |>.getD 0

/-! ## Specification-side vocabulary -/

/-- The one-hot vector of length `V` for index `k`, after the spec's data
model: `1` at index `k` and `0` at every other index. -/
def oneHot {K : Type} [Zero K] [One K] (V k : Nat) : List K :=
  (List.range V).map (fun j => if j = k then 1 else 0)

/-- The sum `q[0] + ... + q[i]` of the first `i + 1` probabilities. -/
def cumulative {K : Type} [AddMonoid K] (q : List K) (i : Nat) : K :=
  (q.take (i + 1)).sum

/-- The running value of `sampleSoftmax` after the subtractions for the indices
`0, ..., i`: `p` with `exp vec[0]`, ..., `exp vec[i]` subtracted one after the
other, each by the subtraction of `A`. -/
def residue {F : Type} (A : FloatOps F) (p : F) (vec : List F) (i : Nat) : F :=
  (vec.take (i + 1)).foldl (fun r x => A.sub r (A.exp x)) p

/-- The length of a sequence: its number of (input, target) pairs. -/
def Sequence.len (s : Sequence) : Nat := s.Outputs.length

/-- The `j`-th chunk of a file: the bytes from offset `j * TextChunkSize` on, at
most `TextChunkSize` of them. -/
def chunkAt (text : List Byte) (j : Nat) : List Byte :=
  (text.drop (j * TextChunkSize)).take TextChunkSize

/-- The number of chunks of a file of `n` bytes, `n / TextChunkSize` rounded
up. -/
def chunkCount (n : Nat) : Nat := (n + (TextChunkSize - 1)) / TextChunkSize

/-- The consecutive chunks of a file. -/
def chunks (text : List Byte) : List (List Byte) :=
  (List.range (chunkCount text.length)).map (chunkAt text)

/-- The sequence of the spec's data model for a chunk: the targets are the
one-hot vectors of the bytes of the chunk, and the inputs are the targets
shifted right by one, the sentinel (index 0) filling the first place. -/
def seqOfChunk (chunk : List Byte) : Sequence :=
  { Inputs := (((0 : Byte) :: chunk).take chunk.length).map (fun b => oneHot ASCIICount b.val),
    Outputs := chunk.map (fun b => oneHot ASCIICount b.val) }

/-- The arguments (state, input) of the `i`-th call of `Block.Step` in a run of
the generation loop as the spec describes it: the first call gets the start
state and the zeroed vector `Generate` allocates, and each later call gets the
state the previous call returned and the vector with `1` stored at the index
sampled from the previous output. -/
def genCall {σ F : Type} [Zero F] [One F] (A : FloatOps F) (CharCount : Nat)
    (Step : σ → List F → List F × σ) (start : σ) (rnd : Nat → F) : Nat → σ × List F
  | 0 => (start, List.replicate CharCount 0)
  | i + 1 =>
    let c := genCall A CharCount Step start rnd i
    let res := Step c.1 c.2
    (res.2, (List.replicate CharCount (0 : F)).set
      (sampleSoftmax A CharCount (rnd i) res.1).toNat 1)

/-- The index sampled in iteration `i` of such a run. -/
def genSample {σ F : Type} [Zero F] [One F] (A : FloatOps F) (CharCount : Nat)
    (Step : σ → List F → List F × σ) (start : σ) (rnd : Nat → F) (i : Nat) : Int :=
  let c := genCall A CharCount Step start rnd i
  sampleSoftmax A CharCount (rnd i) (Step c.1 c.2).1

/-- The sequences of one file: one for each of its chunks, in order. -/
def fileSequences (text : List Byte) : List Sequence := (chunks text).map seqOfChunk

/-- The entries of a listing whose name does not start with a dot. -/
def visibleFiles (dir : List (String × List Byte)) : List (String × List Byte) :=
  dir.filter (fun item => !HasPrefix item.1 ".")

/-! ## Lemmas on `oneHotAscii` and `seqForChunk` -/

theorem oneHot_length {K : Type} [Zero K] [One K] (V k : Nat) :
    (oneHot V k : List K).length = V := by
  simp [oneHot]

theorem oneHot_getElem? {K : Type} [Zero K] [One K] (V k i : Nat) (hi : i < V) :
    (oneHot V k : List K)[i]? = some (if i = k then 1 else 0) := by
  simp [oneHot, List.getElem?_range hi]

theorem replicate_set_eq_oneHot {K : Type} [Zero K] [One K] (V k : Nat) :
    (List.replicate V (0 : K)).set k 1 = oneHot V k := by
  apply List.ext_getElem?
  intro i
  by_cases hi : i < V
  · rw [oneHot_getElem? V k i hi, List.getElem?_set]
    by_cases hk : k = i
    · subst hk
      simp [hi]
    · have hk2 : ¬ i = k := fun h => hk h.symm
      simp [hk, hk2, hi]
  · have h1 : ((List.replicate V (0 : K)).set k 1).length ≤ i := by simp; omega
    have h2 : (oneHot V k : List K).length ≤ i := by rw [oneHot_length]; omega
    rw [List.getElem?_eq_none h1, List.getElem?_eq_none h2]

theorem oneHotAscii_of_lt (b : Byte) (h : b.val < ASCIICount) :
    oneHotAscii b = some (oneHot ASCIICount b.val) := by
  simp [oneHotAscii, setIndex, makeVector, h, replicate_set_eq_oneHot]

theorem oneHotAscii_of_ge (b : Byte) (h : ASCIICount ≤ b.val) :
    oneHotAscii b = none := by
  simp [oneHotAscii, setIndex, makeVector]
  omega

/-! ## The sequence built for a chunk -/

theorem seqForChunkLoop_eq (chunk : List Byte) (hascii : ∀ b ∈ chunk, b.val < ASCIICount) :
    ∀ (rest pre : List Byte) (res : Sequence), chunk = pre ++ rest →
      seqForChunkLoop chunk pre.length rest res =
        some { Inputs := res.Inputs ++
                 ((((0 : Byte) :: chunk).drop pre.length).take rest.length).map
                   (fun b => oneHot ASCIICount b.val),
               Outputs := res.Outputs ++ rest.map (fun b => oneHot ASCIICount b.val) } := by
  intro rest
  induction rest with
  | nil => intro pre res _; simp [seqForChunkLoop]
  | cons x rest ih =>
    intro pre res hc
    have hx : x.val < ASCIICount := hascii x (by simp [hc])
    have hlen : pre.length < ((0 : Byte) :: chunk).length := by simp [hc]; omega
    have hprev : (if pre.length = 0 then oneHotAscii 0
        else match chunk[pre.length - 1]? with
          | none => none
          | some c => oneHotAscii c) =
        some (oneHot ASCIICount ((((0 : Byte) :: chunk)[pre.length]).val)) := by
      cases pre with
      | nil => simp [oneHotAscii_of_lt, ASCIICount]
      | cons y pre =>
        have h1 : pre.length < chunk.length := by simp [hc]; omega
        have h2 : chunk[pre.length] ∈ chunk := List.getElem_mem h1
        simp [List.getElem?_eq_getElem h1, oneHotAscii_of_lt _ (hascii _ h2)]
    have hrec := ih (pre ++ [x]) ⟨res.Inputs ++
        [oneHot ASCIICount ((((0 : Byte) :: chunk)[pre.length]).val)],
        res.Outputs ++ [oneHot ASCIICount x.val]⟩ (by simp [hc])
    simp only [List.length_append, List.length_singleton] at hrec
    simp only [seqForChunkLoop, oneHotAscii_of_lt x hx, hprev, hrec]
    rw [List.drop_eq_getElem_cons hlen]
    simp

theorem seqForChunk_eq (chunk : List Byte) (hascii : ∀ b ∈ chunk, b.val < ASCIICount) :
    seqForChunk chunk =
      some { Inputs := (((0 : Byte) :: chunk).take chunk.length).map
               (fun b => oneHot ASCIICount b.val),
             Outputs := chunk.map (fun b => oneHot ASCIICount b.val) } := by
  have h := seqForChunkLoop_eq chunk hascii chunk [] { Inputs := [], Outputs := [] } rfl
  simpa [seqForChunk] using h

/-! ## The chunking loop -/

theorem lt_chunkCount_iff (n k : Nat) : k < chunkCount n ↔ k * TextChunkSize < n := by
  simp only [chunkCount, TextChunkSize]
  omega

theorem chunkLoop_step (text : List Byte) (hascii : ∀ b ∈ text, b.val < ASCIICount)
    (k : Nat) (result : List Sequence) (hk : k * TextChunkSize < text.length) :
    chunkLoop text (k * TextChunkSize) result =
      chunkLoop text ((k + 1) * TextChunkSize) (result ++ [seqOfChunk (chunkAt text k)]) := by
  rw [chunkLoop]
  have hslice : slice text (k * TextChunkSize)
      (k * TextChunkSize + (if TextChunkSize > text.length - k * TextChunkSize
        then text.length - k * TextChunkSize else TextChunkSize)) = some (chunkAt text k) := by
    unfold slice chunkAt
    split_ifs with h1 h2 h2
    · congr 1
      rw [List.drop_take]
      simp only [Nat.add_sub_cancel_left]
      rw [List.take_of_length_le (by simp), List.take_of_length_le (by simp; omega)]
    · omega
    · congr 1
      rw [List.drop_take]
      simp
    · omega
  have hmem : ∀ b ∈ chunkAt text k, b.val < ASCIICount := fun b hb =>
    hascii b (List.mem_of_mem_drop (List.mem_of_mem_take hb))
  have hnext : (k + 1) * TextChunkSize = k * TextChunkSize + TextChunkSize := by ring
  rw [if_pos hk, hnext]
  simp only [hslice, seqForChunk_eq _ hmem, seqOfChunk]
theorem chunkLoop_from (text : List Byte) (hascii : ∀ b ∈ text, b.val < ASCIICount) :
    ∀ (m k : Nat) (result : List Sequence), chunkCount text.length - k = m →
      chunkLoop text (k * TextChunkSize) result =
        some (result ++ (List.range' k m).map (fun j => seqOfChunk (chunkAt text j))) := by
  intro m
  induction m with
  | zero =>
    intro k result hm
    have hk : ¬ k * TextChunkSize < text.length := by
      rw [← lt_chunkCount_iff]
      omega
    rw [chunkLoop, if_neg hk]
    simp
  | succ m ih =>
    intro k result hm
    have hk : k * TextChunkSize < text.length := by
      rw [← lt_chunkCount_iff]
      omega
    rw [chunkLoop_step text hascii k result hk, ih (k + 1) _ (by omega), List.range'_succ]
    simp

theorem chunkLoop_eq (text : List Byte) (hascii : ∀ b ∈ text, b.val < ASCIICount)
    (result : List Sequence) :
    chunkLoop text 0 result = some (result ++ (chunks text).map seqOfChunk) := by
  have h := chunkLoop_from text hascii (chunkCount text.length) 0 result (by omega)
  rw [Nat.zero_mul] at h
  rw [h, chunks, List.range_eq_range', List.map_map]
  rfl

theorem chunks_length (text : List Byte) : (chunks text).length = chunkCount text.length := by
  simp [chunks]

theorem chunkAt_length (text : List Byte) (j : Nat) :
    (chunkAt text j).length = min TextChunkSize (text.length - j * TextChunkSize) := by
  simp [chunkAt]

theorem flatten_chunkAt (text : List Byte) :
    ∀ N : Nat, ((List.range N).map (chunkAt text)).flatten = text.take (N * TextChunkSize) := by
  intro N
  induction N with
  | zero => simp
  | succ N ih =>
    rw [List.range_succ, List.map_append, List.flatten_append, ih]
    have h : (N + 1) * TextChunkSize = N * TextChunkSize + TextChunkSize := by ring
    rw [h, List.take_add]
    simp [chunkAt]

theorem chunks_flatten (text : List Byte) : (chunks text).flatten = text := by
  rw [chunks, flatten_chunkAt]
  apply List.take_of_length_le
  have : ¬ chunkCount text.length < chunkCount text.length := lt_irrefl _
  rw [lt_chunkCount_iff] at this
  omega

theorem chunkCount_eq_ceil (n : Nat) :
    chunkCount n = ⌈(n : ℚ) / (TextChunkSize : ℚ)⌉₊ := by
  have h512 : (TextChunkSize : ℚ) = 512 := by simp [TextChunkSize]
  have hN : chunkCount n = (n + 511) / 512 := by simp [chunkCount, TextChunkSize]
  rw [h512]
  by_cases hn : n = 0
  · subst hn
    simp [hN]
  · symm
    have hne : chunkCount n ≠ 0 := by rw [hN]; omega
    rw [Nat.ceil_eq_iff hne]
    constructor
    · rw [lt_div_iff₀ (by norm_num)]
      have : (chunkCount n - 1) * 512 < n := by rw [hN]; omega
      exact_mod_cast this
    · rw [div_le_iff₀ (by norm_num)]
      have : n ≤ chunkCount n * 512 := by rw [hN]; omega
      exact_mod_cast this

theorem seqOfChunk_len (chunk : List Byte) :
    (seqOfChunk chunk).len = chunk.length ∧ (seqOfChunk chunk).Inputs.length = chunk.length := by
  simp [seqOfChunk, Sequence.len]

theorem readLoop_eq : ∀ (dir : List (String × List Byte)) (result : List Sequence),
    (∀ f ∈ dir, HasPrefix f.1 "." = false → ∀ b ∈ f.2, b.val < ASCIICount) →
    readLoop dir result =
      some (result ++ ((visibleFiles dir).map (fun f => fileSequences f.2)).flatten) := by
  intro dir
  induction dir with
  | nil => intro result _; simp [readLoop, visibleFiles]
  | cons item dir ih =>
    intro result h
    have hrest : ∀ f ∈ dir, HasPrefix f.1 "." = false → ∀ b ∈ f.2, b.val < ASCIICount :=
      fun f hf => h f (List.mem_cons_of_mem _ hf)
    by_cases hdot : HasPrefix item.1 "." = true
    · rw [readLoop, if_pos hdot, ih result hrest]
      simp [visibleFiles, hdot]
    · have hdot2 : HasPrefix item.1 "." = false := by simpa using hdot
      rw [readLoop, if_neg hdot, chunkLoop_eq item.2 (h item (List.mem_cons_self _ _) hdot2)]
      simp only [ih _ hrest]
      simp [visibleFiles, hdot2, fileSequences]

theorem chunks_small (text : List Byte) (h0 : 0 < text.length)
    (h1 : text.length ≤ TextChunkSize) : chunks text = [text] := by
  have hc : chunkCount text.length = 1 := by
    simp only [chunkCount, TextChunkSize] at *
    omega
  rw [chunks, hc]
  have hr : List.range 1 = [0] := rfl
  rw [hr]
  simp [chunkAt, List.take_of_length_le h1]


theorem seqForChunk_none_of_head (x : Byte) (rest : List Byte) (h : ASCIICount ≤ x.val) :
    seqForChunk (x :: rest) = none := by
  simp [seqForChunk, seqForChunkLoop, oneHotAscii_of_ge x h]

/-! ## The loop over the directory -/

theorem fileSequences_small (text : List Byte) (h0 : 0 < text.length)
    (h1 : text.length < TextChunkSize) : fileSequences text = [seqOfChunk text] := by
  simp [fileSequences, chunks_small text h0 (Nat.le_of_lt h1)]

theorem flatten_map_small : ∀ files : List (String × List Byte),
    (∀ f ∈ files, 0 < f.2.length ∧ f.2.length < TextChunkSize) →
    (files.map (fun f => fileSequences f.2)).flatten = files.map (fun f => seqOfChunk f.2) := by
  intro files
  induction files with
  | nil => intro _; rfl
  | cons f files ih =>
    intro h
    have hf := h f (List.mem_cons_self _ _)
    rw [List.map_cons, List.flatten_cons, fileSequences_small f.2 hf.1 hf.2,
      ih (fun g hg => h g (List.mem_cons_of_mem _ hg))]
    rfl

theorem mem_visibleFiles {dir : List (String × List Byte)} {f : String × List Byte} :
    f ∈ visibleFiles dir ↔ f ∈ dir ∧ HasPrefix f.1 "." = false := by
  simp [visibleFiles]

theorem chunkAt_infix (text : List Byte) (j : Nat) : chunkAt text j <:+: text :=
  ((List.take_prefix _ _).isInfix).trans ((List.drop_suffix _ _).isInfix)

theorem visibleFiles_idem (dir : List (String × List Byte)) :
    visibleFiles (visibleFiles dir) = visibleFiles dir := by
  simp [visibleFiles]

theorem chunkLoop_none_of_head (x : Byte) (rest : List Byte) (result : List Sequence)
    (h : ASCIICount ≤ x.val) : chunkLoop (x :: rest) 0 result = none := by
  have hs : ∀ bs : Nat, 0 < bs → bs ≤ (x :: rest).length →
      (match slice (x :: rest) 0 (0 + bs) with
        | none => none
        | some chunk =>
          match seqForChunk chunk with
          | none => none
          | some seq => chunkLoop (x :: rest) (0 + TextChunkSize) (result ++ [seq])) = none := by
    intro bs h0 h1
    obtain ⟨m, rfl⟩ : ∃ m, bs = m + 1 := ⟨bs - 1, by omega⟩
    have : slice (x :: rest) 0 (0 + (m + 1)) = some (x :: rest.take m) := by
      simp [slice, h1]
      simpa using h1
    rw [this]
    simp only [seqForChunk_none_of_head x _ h]
  rw [chunkLoop, if_pos (by simp)]
  apply hs
  · simp only [TextChunkSize]; split_ifs <;> simp
  · simp only [TextChunkSize]; split_ifs <;> omega

/-! ## Lemmas on `sampleSoftmax` and `Generate` -/

theorem cumulative_cons_zero {K : Type} [AddMonoid K] (a : K) (q : List K) :
    cumulative (a :: q) 0 = a := by
  simp [cumulative]

theorem cumulative_cons_succ {K : Type} [AddMonoid K] (a : K) (q : List K) (m : Nat) :
    cumulative (a :: q) (m + 1) = a + cumulative q m := by
  simp [cumulative]

theorem residue_cons_zero {F : Type} (A : FloatOps F) (p x : F) (rest : List F) :
    residue A p (x :: rest) 0 = A.sub p (A.exp x) := by
  simp [residue]

theorem residue_cons_succ {F : Type} (A : FloatOps F) (p x : F) (rest : List F) (m : Nat) :
    residue A p (x :: rest) (m + 1) = residue A (A.sub p (A.exp x)) rest m := by
  simp [residue]

/-- In exact arithmetic the running value is `p` less the cumulative sum. -/
theorem residue_exactOps {K : Type} [LinearOrderedField K] (exp : K → K) :
    ∀ (vec : List K) (p : K) (i : Nat),
      residue (exactOps exp) p vec i = p - cumulative (vec.map exp) i := by
  intro vec
  induction vec with
  | nil => intro p i; simp [residue, cumulative]
  | cons x rest ih =>
    intro p i
    cases i with
    | zero => simp [residue_cons_zero, cumulative_cons_zero, exactOps]
    | succ i =>
      rw [residue_cons_succ, ih, List.map_cons, cumulative_cons_succ]
      simp only [exactOps]
      ring

/-- What the loop of `sampleSoftmax` returns, in terms of the running values. -/
theorem sampleSoftmaxLoop_spec {F : Type} (A : FloatOps F) : ∀ (vec : List F) (i : Nat) (p : F),
    (∃ m : Nat, sampleSoftmaxLoop A i p vec = some (i + m) ∧ m < vec.length ∧
        A.ltZero (residue A p vec m) = true ∧
        ∀ j : Nat, j < m → A.ltZero (residue A p vec j) = false) ∨
      (sampleSoftmaxLoop A i p vec = none ∧
        ∀ j : Nat, j < vec.length → A.ltZero (residue A p vec j) = false) := by
  intro vec
  induction vec with
  | nil => intro i p; right; simp [sampleSoftmaxLoop]
  | cons x rest ih =>
    intro i p
    by_cases hx : A.ltZero (A.sub p (A.exp x)) = true
    · left
      refine ⟨0, by simp [sampleSoftmaxLoop, hx], by simp, ?_, ?_⟩
      · rw [residue_cons_zero]; exact hx
      · intro j hj; omega
    · have hx2 : A.ltZero (A.sub p (A.exp x)) = false := by simpa using hx
      have hstep : sampleSoftmaxLoop A i p (x :: rest) =
          sampleSoftmaxLoop A (i + 1) (A.sub p (A.exp x)) rest := by
        simp [sampleSoftmaxLoop, hx2]
      rcases ih (i + 1) (A.sub p (A.exp x)) with ⟨m, h1, h2, h3, h4⟩ | ⟨h1, h2⟩
      · left
        refine ⟨m + 1, ?_, by simpa using h2, ?_, ?_⟩
        · rw [hstep, h1]
          congr 1
          omega
        · rw [residue_cons_succ]; exact h3
        · intro j hj
          cases j with
          | zero => rw [residue_cons_zero]; exact hx2
          | succ j => rw [residue_cons_succ]; exact h4 j (by omega)
      · right
        refine ⟨by rw [hstep, h1], ?_⟩
        intro j hj
        cases j with
        | zero => rw [residue_cons_zero]; exact hx2
        | succ j => rw [residue_cons_succ]; exact h2 j (by simpa using hj)

theorem sampleSoftmaxLoop_concentrated {K : Type} [LinearOrderedField K] (exp : K → K) :
    ∀ (vec : List K) (i k : Nat) (p : K),
    (∀ j : Nat, j ≤ k → (vec.map exp)[j]? = some (if j = k then 1 else 0)) →
    0 ≤ p → p < 1 → sampleSoftmaxLoop (exactOps exp) i p vec = some (i + k) := by
  intro vec
  induction vec with
  | nil =>
    intro i k p h _ _
    have := h 0 (Nat.zero_le _)
    simp at this
  | cons x rest ih =>
    intro i k p h hp0 hp1
    have h0 := h 0 (Nat.zero_le _)
    simp only [List.map_cons, List.getElem?_cons_zero, Option.some.injEq] at h0
    cases k with
    | zero =>
      have hx : p - exp x < 0 := by rw [h0]; simp; linarith
      simp [sampleSoftmaxLoop, exactOps, hx]
    | succ k =>
      have hx : ¬ p - exp x < 0 := by rw [h0]; simp; linarith
      have hrec := ih (i + 1) k (p - exp x) (fun j hj => by
        have := h (j + 1) (by omega)
        simpa using this) (by rw [h0]; simpa using hp0) (by rw [h0]; simpa using hp1)
      have hstep : sampleSoftmaxLoop (exactOps exp) i p (x :: rest) =
          sampleSoftmaxLoop (exactOps exp) (i + 1) (p - exp x) rest := by
        simp [sampleSoftmaxLoop, exactOps, hx]
      rw [hstep, hrec]
      congr 1
      omega

theorem sampleSoftmax_range {F : Type} (A : FloatOps F) (CharCount : Nat) (p : F)
    (vec : List F) (hCC : 0 < CharCount) (hlen : vec.length ≤ CharCount) :
    0 ≤ sampleSoftmax A CharCount p vec ∧
      sampleSoftmax A CharCount p vec < (CharCount : Int) := by
  rcases sampleSoftmaxLoop_spec A vec 0 p with ⟨m, h1, h2, _, _⟩ | ⟨h1, _⟩
  · simp only [sampleSoftmax, h1]
    constructor <;> omega
  · simp only [sampleSoftmax, h1]
    constructor <;> omega

theorem genCall_succ {σ F : Type} [Zero F] [One F] (A : FloatOps F) (CharCount : Nat)
    (Step : σ → List F → List F × σ) (start : σ) (rnd : Nat → F) (i : Nat) :
    genCall A CharCount Step start rnd (i + 1) =
      ((Step (genCall A CharCount Step start rnd i).1
          (genCall A CharCount Step start rnd i).2).2,
        (List.replicate CharCount (0 : F)).set
          (genSample A CharCount Step start rnd i).toNat 1) := rfl

theorem GenerateLoop_eq {σ F : Type} [Zero F] [One F] (A : FloatOps F) (CharCount : Nat)
    (Step : σ → List F → List F × σ) (start : σ) (rnd : Nat → F)
    (hCC : 0 < CharCount) (hStep : ∀ s x, (Step s x).1.length ≤ CharCount) :
    ∀ (n i : Nat) (tr : GenTrace σ F),
      GenerateLoop A CharCount Step rnd n i (genCall A CharCount Step start rnd i).1
          (genCall A CharCount Step start rnd i).2 tr =
        { printed := tr.printed ++
            (List.range' i n).map (fun j => byteOfInt (genSample A CharCount Step start rnd j)),
          calls := tr.calls ++ (List.range' i n).map (genCall A CharCount Step start rnd),
          panicked := tr.panicked } := by
  intro n
  induction n with
  | zero => intro i tr; simp [GenerateLoop]
  | succ n ih =>
    intro i tr
    have hr := sampleSoftmax_range A CharCount (rnd i)
      (Step (genCall A CharCount Step start rnd i).1
        (genCall A CharCount Step start rnd i).2).1 hCC (hStep _ _)
    have hcond : 0 ≤ genSample A CharCount Step start rnd i ∧
        genSample A CharCount Step start rnd i <
          ((List.replicate CharCount (0 : F)).length : Int) := by
      simpa [genSample] using hr
    have hnext := ih (i + 1)
      { printed := tr.printed ++ [byteOfInt (genSample A CharCount Step start rnd i)],
        calls := tr.calls ++ [genCall A CharCount Step start rnd i],
        panicked := tr.panicked }
    rw [genCall_succ] at hnext
    simp only [GenerateLoop]
    simp only [genSample] at hcond hnext
    rw [if_pos hcond, hnext, List.range'_succ]
    simp [genSample]

theorem Generate_eq {σ F : Type} [Zero F] [One F] (A : FloatOps F) (CharCount : Nat)
    (Step : σ → List F → List F × σ) (start : σ) (rnd : Nat → F)
    (hCC : 0 < CharCount) (hStep : ∀ s x, (Step s x).1.length ≤ CharCount) (n : Nat) :
    Generate A CharCount Step start rnd (n : Int) =
      { printed := (List.range n).map
            (fun j => byteOfInt (genSample A CharCount Step start rnd j)) ++ [10],
        calls := (List.range n).map (genCall A CharCount Step start rnd),
        panicked := false } := by
  have h := GenerateLoop_eq A CharCount Step start rnd hCC hStep n 0
    { printed := [], calls := [], panicked := false }
  have h0 : genCall A CharCount Step start rnd 0 = (start, List.replicate CharCount 0) := rfl
  rw [h0] at h
  simp only [Generate, Int.toNat_ofNat, h, List.range_eq_range']
  simp

theorem genCall_congr {σ F : Type} [Zero F] [One F] (A : FloatOps F) (CharCount : Nat)
    (Step : σ → List F → List F × σ) (start : σ) (rnd rnd2 : Nat → F) :
    ∀ i : Nat, (∀ j : Nat, j < i → rnd2 j = rnd j) →
      genCall A CharCount Step start rnd2 i = genCall A CharCount Step start rnd i := by
  intro i
  induction i with
  | zero => intro _; rfl
  | succ i ih =>
    intro h
    have hi := ih (fun j hj => h j (by omega))
    rw [genCall_succ, genCall_succ, genSample, genSample, hi, h i (by omega)]

theorem genSample_congr {σ F : Type} [Zero F] [One F] (A : FloatOps F) (CharCount : Nat)
    (Step : σ → List F → List F × σ) (start : σ) (rnd rnd2 : Nat → F)
    (i : Nat) (h : ∀ j : Nat, j ≤ i → rnd2 j = rnd j) :
    genSample A CharCount Step start rnd2 i = genSample A CharCount Step start rnd i := by
  rw [genSample, genSample, genCall_congr A CharCount Step start rnd rnd2 i
    (fun j hj => h j (by omega)), h i (le_refl _)]


theorem GenerateLoop_calls {σ F : Type} [Zero F] [One F] (A : FloatOps F)
    (CharCount : Nat) (Step : σ → List F → List F × σ) (rnd : Nat → F) :
    ∀ (n i : Nat) (state : σ) (last : List F) (tr : GenTrace σ F),
      tr.calls <+: (GenerateLoop A CharCount Step rnd n i state last tr).calls := by
  intro n
  induction n with
  | zero => intro i state last tr; simp [GenerateLoop]
  | succ n ih =>
    intro i state last tr
    simp only [GenerateLoop]
    split_ifs with h
    · exact (List.prefix_append _ _).trans (ih _ _ _ ⟨_, _, _⟩)
    · exact List.prefix_append _ _

theorem sampleSoftmaxLoop_cons_neg {F : Type} (A : FloatOps F) (i : Nat) (p x : F)
    (rest : List F) (h : A.ltZero (A.sub p (A.exp x)) = true) :
    sampleSoftmaxLoop A i p (x :: rest) = some i := by
  simp [sampleSoftmaxLoop, h]

theorem sampleSoftmaxLoop_cons_nonneg {F : Type} (A : FloatOps F) (i : Nat) (p x : F)
    (rest : List F) (h : A.ltZero (A.sub p (A.exp x)) = false) :
    sampleSoftmaxLoop A i p (x :: rest) =
      sampleSoftmaxLoop A (i + 1) (A.sub p (A.exp x)) rest := by
  simp [sampleSoftmaxLoop, h]

/-- The running value at index `m` is the one before it less `exp vec[m]`. -/
theorem residue_eq_sub {F : Type} (A : FloatOps F) (p : F) (vec : List F) (m : Nat)
    (hm : m < vec.length) :
    residue A p vec m =
      A.sub ((vec.take m).foldl (fun r x => A.sub r (A.exp x)) p) (A.exp (vec.get ⟨m, hm⟩)) := by
  rw [residue, List.take_succ, List.foldl_append, List.getElem?_eq_getElem hm]
  rfl

/-! ## Lemmas on the float64 instance -/

theorem log2_eq_of_bounds (n k : Nat) (h1 : 2 ^ k ≤ n) (h2 : n < 2 ^ (k + 1)) :
    Nat.log2 n = k := by
  have hn : n ≠ 0 := by
    intro h
    subst h
    exact absurd h1 (by simp)
  have ha : k ≤ Nat.log2 n := (Nat.le_log2 hn).2 h1
  have hb : Nat.log2 n < k + 1 := (Nat.log2_lt hn).2 h2
  omega

/-- The rounding of an integer whose leading bit is bit `k`. -/
theorem round53_of_bounds (n : Int) (k : Nat) (h1 : 2 ^ k ≤ n.natAbs)
    (h2 : n.natAbs < 2 ^ (k + 1)) : round53 n = roundAt (k - 52) n := by
  rw [round53, log2_eq_of_bounds _ _ h1 h2]

theorem roundAt_zero (s : Nat) : roundAt s 0 = 0 := by
  simp [roundAt]

theorem round53_zero : round53 0 = 0 := roundAt_zero _

/-- Rounding does not make a number negative that is not. -/
theorem round53_neg {n : Int} (h : round53 n < 0) : n < 0 := by
  by_contra hn
  have h0 : 0 ≤ n := not_lt.1 hn
  have hs : 0 ≤ Int.sign n := Int.sign_nonneg.2 h0
  have : 0 ≤ round53 n := by
    rw [round53, roundAt]
    exact Int.mul_nonneg hs (Int.ofNat_nonneg _)
  omega

theorem float64Ops_step (exp : Int → Int) (p x : Int) :
    (float64Ops exp).sub p ((float64Ops exp).exp x) = round53 (p - exp x) := rfl

theorem float64Ops_ltZero (exp : Int → Int) (p : Int) :
    (float64Ops exp).ltZero p = decide (p < 0) := rfl

/-- In float64, when `r` is not negative and `r - q` is, `q` is positive. -/
theorem float64Ops_sign (exp : Int → Int) (r q : Int)
    (hr : (float64Ops exp).ltZero r = false)
    (h : (float64Ops exp).ltZero ((float64Ops exp).sub r q) = true) : 0 < q := by
  have h1 : ¬ r < 0 := by simpa [float64Ops] using hr
  have h2 : round53 (r - q) < 0 := by simpa [float64Ops] using h
  have := round53_neg h2
  omega

/-! ## Claims on `samples.go` -/

/-- C1. For a chunk all of whose bytes are encodable (below `ASCIICount`),
`seqForChunk` returns a sequence whose `Inputs` and `Outputs` both have the
length of the chunk; `Outputs[i]` is the one-hot vector of `chunk[i]`,
`Inputs[0]` is the sentinel one-hot (index 0), and `Inputs[i]` for `i > 0` is
`Outputs[i-1]`: the inputs are the targets shifted right by one. -/
theorem seqForChunk_shifted (chunk : List Byte)
    (hascii : ∀ b ∈ chunk, b.val < ASCIICount) :
    ∃ s : Sequence, seqForChunk chunk = some s ∧
      s.Inputs.length = chunk.length ∧ s.Outputs.length = chunk.length ∧
      (∀ (i : Nat) (hi : i < chunk.length),
        s.Outputs[i]? = some (oneHot ASCIICount (chunk[i]).val)) ∧
      (0 < chunk.length → s.Inputs[0]? = some (oneHot ASCIICount 0)) ∧
      (∀ i : Nat, 0 < i → i < chunk.length → s.Inputs[i]? = s.Outputs[i - 1]?) := by
  refine ⟨_, seqForChunk_eq chunk hascii, ?_, ?_, ?_, ?_, ?_⟩
  · simp
  · simp
  · intro i hi
    simp [List.getElem?_eq_getElem hi]
  · intro hpos
    cases chunk with
    | nil => simp at hpos
    | cons x rest => simp
  · intro i hpos hi
    obtain ⟨j, rfl⟩ : ∃ j, i = j + 1 := ⟨i - 1, by omega⟩
    have hj : j < chunk.length := by omega
    simp [List.getElem?_take, hi, List.getElem?_eq_getElem hj]

/-- The chunk "abcd" of the end-to-end scenario: its targets are a, b, c, d
and its inputs are the sentinel, a, b, c. -/
theorem seqForChunk_shifted_abcd :
    (∀ b ∈ ([97, 98, 99, 100] : List Byte), b.val < ASCIICount) ∧
    (∃ s : Sequence, seqForChunk [97, 98, 99, 100] = some s ∧
      s.Inputs.length = 4 ∧ s.Outputs.length = 4 ∧
      (∀ (i : Nat) (hi : i < 4),
        s.Outputs[i]? = some (oneHot ASCIICount (([97, 98, 99, 100] : List Byte)[i]).val)) ∧
      (0 < 4 → s.Inputs[0]? = some (oneHot ASCIICount 0)) ∧
      (∀ i : Nat, 0 < i → i < 4 → s.Inputs[i]? = s.Outputs[i - 1]?)) ∧
    seqForChunk [97, 98, 99, 100] =
      some { Inputs := [oneHot ASCIICount 0, oneHot ASCIICount 97, oneHot ASCIICount 98,
                        oneHot ASCIICount 99],
             Outputs := [oneHot ASCIICount 97, oneHot ASCIICount 98, oneHot ASCIICount 99,
                         oneHot ASCIICount 100] } :=
  ⟨by simp [ASCIICount]; decide,
    seqForChunk_shifted [97, 98, 99, 100] (by simp [ASCIICount]; decide),
    by rw [seqForChunk_eq _ (by simp [ASCIICount]; decide)]; rfl⟩

/-- C4, as the code has it. For every byte below `ASCIICount` (128),
`oneHotAscii` succeeds and returns a vector of length `ASCIICount` with `1` at
the index of the byte and `0` at every other index; hence `seqForChunk`
succeeds on every chunk all of whose bytes are below `ASCIICount`. -/
theorem oneHotAscii_ascii (b : Byte) (chunk : List Byte) (hb : b.val < ASCIICount)
    (hchunk : ∀ x ∈ chunk, x.val < ASCIICount) :
    (∃ v : Vector, oneHotAscii b = some v ∧ v.length = ASCIICount ∧
      ∀ i : Nat, i < ASCIICount → v[i]? = some (if i = b.val then 1 else 0)) ∧
    (seqForChunk chunk).isSome = true := by
  refine ⟨⟨_, oneHotAscii_of_lt b hb, oneHot_length _ _, ?_⟩, ?_⟩
  · intro i hi
    exact oneHot_getElem? _ _ i hi
  · rw [seqForChunk_eq chunk hchunk]
    rfl

/-- The byte 127 and the chunk "abcd" are encoded. -/
theorem oneHotAscii_ascii_witness :
    ((127 : Byte).val < ASCIICount) ∧
    (∀ x ∈ ([97, 98, 99, 100] : List Byte), x.val < ASCIICount) ∧
    ((∃ v : Vector, oneHotAscii 127 = some v ∧ v.length = ASCIICount ∧
      ∀ i : Nat, i < ASCIICount → v[i]? = some (if i = (127 : Byte).val then 1 else 0)) ∧
    (seqForChunk [97, 98, 99, 100]).isSome = true) :=
  ⟨by decide, by simp [ASCIICount]; decide,
    oneHotAscii_ascii 127 [97, 98, 99, 100] (by decide) (by simp [ASCIICount]; decide)⟩

/-- C4 fails as stated: the byte 128 is a raw byte value, and on it the store
of `oneHotAscii` is out of range, so that `oneHotAscii` panics, and with it
`seqForChunk` on the one-byte chunk holding it. -/
theorem oneHotAscii_128_panics :
    oneHotAscii 128 = none ∧ seqForChunk [128] = none := by
  have h : oneHotAscii 128 = none := oneHotAscii_of_ge 128 (by simp [ASCIICount]; decide)
  exact ⟨h, by simp [seqForChunk, seqForChunkLoop, h]⟩

/-- C3, as the code has it. For every file of `n` bytes all of which are below
`ASCIICount`, the chunking loop of `ReadSequences` appends `⌈n / 512⌉`
sequences; each has length 512 except possibly the last, every one has a
length between 1 and 512 (none is empty), the targets of the sequences,
concatenated in order, are the one-hot vectors of the bytes of the file, and
when `n` is a multiple of 512 the number of sequences is `n / 512`. -/
theorem chunkLoop_chunking (text : List Byte) (result : List Sequence)
    (hascii : ∀ b ∈ text, b.val < ASCIICount) :
    ∃ seqs : List Sequence, chunkLoop text 0 result = some (result ++ seqs) ∧
      seqs.length = ⌈(text.length : ℚ) / (TextChunkSize : ℚ)⌉₊ ∧
      (∀ (j : Nat) (hj : j < seqs.length),
        (j + 1 < seqs.length → (seqs[j]).len = TextChunkSize) ∧
        1 ≤ (seqs[j]).len ∧ (seqs[j]).len ≤ TextChunkSize ∧
        (seqs[j]).Inputs.length = (seqs[j]).len) ∧
      (seqs.map Sequence.Outputs).flatten = text.map (fun b => oneHot ASCIICount b.val) ∧
      (text.length % TextChunkSize = 0 → seqs.length = text.length / TextChunkSize) := by
  have hlen : ((chunks text).map seqOfChunk).length = chunkCount text.length := by
    simp [chunks_length]
  refine ⟨(chunks text).map seqOfChunk, chunkLoop_eq text hascii result, ?_, ?_, ?_, ?_⟩
  · rw [hlen, chunkCount_eq_ceil]
  · intro j hj
    have hjN : j < chunkCount text.length := by rw [← hlen]; exact hj
    have hj0 : j * TextChunkSize < text.length := (lt_chunkCount_iff _ _).1 hjN
    have hget : ((chunks text).map seqOfChunk)[j] = seqOfChunk (chunkAt text j) := by
      simp [chunks]
    rw [hget, (seqOfChunk_len _).1, (seqOfChunk_len _).2, chunkAt_length]
    refine ⟨?_, ?_, ?_, rfl⟩
    · intro hj1
      rw [hlen, lt_chunkCount_iff] at hj1
      simp only [TextChunkSize] at *
      omega
    · simp only [TextChunkSize] at *
      omega
    · exact Nat.min_le_left _ _
  · have h : ((chunks text).map seqOfChunk).map Sequence.Outputs =
        (chunks text).map (List.map (fun b => oneHot ASCIICount b.val)) := by
      simp [seqOfChunk]
    rw [h, ← List.map_flatten, chunks_flatten]
  · intro hmod
    rw [hlen]
    simp only [chunkCount, TextChunkSize] at *
    omega

/-- A file of 1024 bytes "a": two chunks of 512 bytes. -/
theorem chunkLoop_chunking_witness :
    (∀ b ∈ (List.replicate 1024 97 : List Byte), b.val < ASCIICount) ∧
    (∃ seqs : List Sequence,
      chunkLoop (List.replicate 1024 97) 0 [] = some ([] ++ seqs) ∧
      seqs.length = ⌈(((List.replicate 1024 97 : List Byte).length : ℕ) : ℚ) / (TextChunkSize : ℚ)⌉₊ ∧
      (∀ (j : Nat) (hj : j < seqs.length),
        (j + 1 < seqs.length → (seqs[j]).len = TextChunkSize) ∧
        1 ≤ (seqs[j]).len ∧ (seqs[j]).len ≤ TextChunkSize ∧
        (seqs[j]).Inputs.length = (seqs[j]).len) ∧
      (seqs.map Sequence.Outputs).flatten =
        (List.replicate 1024 97 : List Byte).map (fun b => oneHot ASCIICount b.val) ∧
      ((List.replicate 1024 97 : List Byte).length % TextChunkSize = 0 →
        seqs.length = (List.replicate 1024 97 : List Byte).length / TextChunkSize)) :=
  ⟨fun b hb => by rw [List.eq_of_mem_replicate hb]; decide,
    chunkLoop_chunking (List.replicate 1024 97) []
      (fun b hb => by rw [List.eq_of_mem_replicate hb]; decide)⟩

/-- C3 fails as stated: on a file of the one byte 128 the chunking loop
panics (in `oneHotAscii`) and produces no sequence at all, where the claim
has it produce one. -/
theorem chunkLoop_byte_128_panics : chunkLoop [128] 0 [] = none := by
  rw [chunkLoop]
  simp [slice, TextChunkSize, seqForChunk_none_of_head 128 [] (by simp [ASCIICount]; decide)]

/-- C2, as the code has it. For every directory listing in which every file
whose name does not start with a dot has at least 1 and fewer than
`TextChunkSize` (512) bytes, all of them below `ASCIICount`, `ReadSequences`
produces exactly one sequence for each such file, in listing order, and the
length of that sequence (of its inputs and of its targets) is the byte count
of the file. -/
theorem ReadSequences_small_files (dir : List (String × List Byte))
    (hsmall : ∀ f ∈ dir, HasPrefix f.1 "." = false →
      0 < f.2.length ∧ f.2.length < TextChunkSize ∧ ∀ b ∈ f.2, b.val < ASCIICount) :
    ∃ seqs : List Sequence, ReadSequences dir = some seqs ∧
      seqs.length = (visibleFiles dir).length ∧
      seqs.map Sequence.len = (visibleFiles dir).map (fun f => f.2.length) ∧
      seqs.map (fun s => s.Inputs.length) = (visibleFiles dir).map (fun f => f.2.length) := by
  have hread := readLoop_eq dir [] (fun f hf hdot => (hsmall f hf hdot).2.2)
  have hflat := flatten_map_small (visibleFiles dir) (fun f hf => by
    obtain ⟨hf1, hf2⟩ := mem_visibleFiles.1 hf
    exact ⟨(hsmall f hf1 hf2).1, (hsmall f hf1 hf2).2.1⟩)
  rw [List.nil_append, hflat] at hread
  refine ⟨_, hread, by simp, ?_, ?_⟩
  · simp [Function.comp_def, (seqOfChunk_len _).1]
  · simp [Function.comp_def, (seqOfChunk_len _).2]

/-- A directory of a hidden file and two small files, of 4 and of 2 bytes. -/
theorem ReadSequences_small_files_witness :
    (∀ f ∈ ([(".keep", [200]), ("a.txt", [97, 98, 99, 100]), ("b.txt", [104, 105])] :
        List (String × List Byte)), HasPrefix f.1 "." = false →
      0 < f.2.length ∧ f.2.length < TextChunkSize ∧ ∀ b ∈ f.2, b.val < ASCIICount) ∧
    (∃ seqs : List Sequence,
      ReadSequences [(".keep", [200]), ("a.txt", [97, 98, 99, 100]), ("b.txt", [104, 105])] =
        some seqs ∧
      seqs.length =
        (visibleFiles [(".keep", [200]), ("a.txt", [97, 98, 99, 100]), ("b.txt", [104, 105])]).length ∧
      seqs.map Sequence.len =
        (visibleFiles [(".keep", [200]), ("a.txt", [97, 98, 99, 100]),
          ("b.txt", [104, 105])]).map (fun f => f.2.length) ∧
      seqs.map (fun s => s.Inputs.length) =
        (visibleFiles [(".keep", [200]), ("a.txt", [97, 98, 99, 100]),
          ("b.txt", [104, 105])]).map (fun f => f.2.length)) ∧
    (visibleFiles [(".keep", [200]), ("a.txt", [97, 98, 99, 100]),
          ("b.txt", [104, 105])]).map (fun f => f.2.length) = [4, 2] :=
  ⟨by simp [ASCIICount, TextChunkSize]; decide,
    ReadSequences_small_files _ (by simp [ASCIICount, TextChunkSize]; decide),
    by decide⟩

/-- C2 fails as stated: a file of no bytes has fewer than 512 bytes and gets
no sequence, and a file holding the byte 128 makes `ReadSequences` panic. -/
theorem ReadSequences_empty_file_no_sequence :
    ReadSequences [("empty.txt", [])] = some [] ∧
    ReadSequences [("latin1.txt", [128])] = none := by
  constructor
  · have h : HasPrefix "empty.txt" "." = false := by decide
    rw [ReadSequences, readLoop, h, chunkLoop]
    simp [readLoop]
  · have h : HasPrefix "latin1.txt" "." = false := by decide
    rw [ReadSequences, readLoop, h, chunkLoop]
    simp [slice, TextChunkSize, seqForChunk_none_of_head 128 [] (by simp [ASCIICount]; decide)]

/-- C9, as the code has it. For a directory given as the ordered list of its
(name, contents) entries, in which the files whose name does not start with a
dot hold only bytes below `ASCIICount`, `ReadSequences` returns the
concatenation, in listing order, of the chunk sequences of those files, each
being what the chunking loop gives for the file alone; the entries whose
name starts with a dot contribute nothing; every sequence returned is that of
a run of consecutive bytes of one such file; and the empty directory gives
the empty sample set. -/
theorem ReadSequences_concat (dir : List (String × List Byte))
    (hascii : ∀ f ∈ dir, HasPrefix f.1 "." = false → ∀ b ∈ f.2, b.val < ASCIICount) :
    ReadSequences dir = some (((visibleFiles dir).map (fun f => fileSequences f.2)).flatten) ∧
    (∀ f ∈ visibleFiles dir, chunkLoop f.2 0 [] = some (fileSequences f.2)) ∧
    ReadSequences dir = ReadSequences (visibleFiles dir) ∧
    (∀ seqs : List Sequence, ReadSequences dir = some seqs → ∀ s ∈ seqs,
      ∃ f ∈ dir, HasPrefix f.1 "." = false ∧ ∃ chunk : List Byte,
        chunk <:+: f.2 ∧ s = seqOfChunk chunk) ∧
    (dir = [] → ReadSequences dir = some []) := by
  have hread := readLoop_eq dir [] hascii
  have hread2 := readLoop_eq (visibleFiles dir) []
    (fun f hf hdot => hascii f (mem_visibleFiles.1 hf).1 hdot)
  rw [List.nil_append] at hread hread2
  rw [visibleFiles_idem] at hread2
  refine ⟨hread, ?_, ?_, ?_, ?_⟩
  · intro f hf
    obtain ⟨hf1, hf2⟩ := mem_visibleFiles.1 hf
    have := chunkLoop_eq f.2 (hascii f hf1 hf2) []
    simpa [fileSequences] using this
  · rw [ReadSequences, ReadSequences, hread, hread2]
  · intro seqs hseqs s hs
    rw [ReadSequences, hread] at hseqs
    obtain rfl := Option.some.inj hseqs
    simp only [List.mem_flatten, List.mem_map] at hs
    obtain ⟨l, ⟨f, hf, rfl⟩, hsl⟩ := hs
    obtain ⟨hf1, hf2⟩ := mem_visibleFiles.1 hf
    simp only [fileSequences, chunks, List.mem_map, List.mem_range] at hsl
    obtain ⟨c, ⟨j, _, rfl⟩, rfl⟩ := hsl
    exact ⟨f, hf1, hf2, chunkAt f.2 j, chunkAt_infix f.2 j, rfl⟩
  · intro hnil
    subst hnil
    rfl

/-- A directory of two text files around a hidden file that holds bytes that
are not ASCII: the hidden file is not read. -/
theorem ReadSequences_concat_witness :
    (∀ f ∈ ([("a.txt", [104, 105]), (".b.swp", [195, 169]), ("c.txt", [111, 107])] :
        List (String × List Byte)), HasPrefix f.1 "." = false → ∀ b ∈ f.2, b.val < ASCIICount) ∧
    ReadSequences [("a.txt", [104, 105]), (".b.swp", [195, 169]), ("c.txt", [111, 107])] =
      some [seqOfChunk [104, 105], seqOfChunk [111, 107]] :=
  ⟨by simp [ASCIICount]; decide,
    by
      rw [(ReadSequences_concat _ (by simp [ASCIICount]; decide)).1]
      have h1 : visibleFiles [("a.txt", [104, 105]), (".b.swp", [195, 169]),
          ("c.txt", [111, 107])] = [("a.txt", [104, 105]), ("c.txt", [111, 107])] := by decide
      have h2 : fileSequences [104, 105] = [seqOfChunk [104, 105]] :=
        by rw [fileSequences, chunks_small _ (by decide) (by decide)]; rfl
      have h3 : fileSequences [111, 107] = [seqOfChunk [111, 107]] :=
        by rw [fileSequences, chunks_small _ (by decide) (by decide)]; rfl
      simp [h1, h2, h3]⟩

/-- C9 fails as stated: on a directory whose second file holds the two bytes
of a UTF-8 "é", `ReadSequences` panics and returns nothing. -/
theorem ReadSequences_utf8_panics :
    ReadSequences [("a.txt", [104, 105]), ("b.txt", [195, 169])] = none := by
  have ha : HasPrefix "a.txt" "." = false := by decide
  have hb : HasPrefix "b.txt" "." = false := by decide
  rw [ReadSequences, readLoop, ha]
  simp only [Bool.false_eq_true, if_false]
  rw [chunkLoop_eq [104, 105] (by simp [ASCIICount]; decide)]
  simp only [readLoop, hb, Bool.false_eq_true, if_false]
  rw [chunkLoop_none_of_head 195 [169] _ (by simp [ASCIICount]; decide)]

/-! ## Claims on `lstm.go` -/

set_option exponentiation.threshold 3000

/-- C5, as the code has it. For every drawn value `p` and every vector of
log-probabilities `vec`: `sampleSoftmax` returns the least index `i` at which
its running value is negative, the running value being `p` after
`q[0] = exp vec[0]`, ..., `q[i] = exp vec[i]` have been subtracted one after the
other by the float64 subtraction (each difference rounded), if there is such an
index, and `CharCount - 1` otherwise. -/
theorem sampleSoftmax_least {F : Type} (A : FloatOps F) (CharCount : Nat) (p : F)
    (vec : List F) :
    (∃ i : Nat, IsLeast {i : Nat | i < vec.length ∧ A.ltZero (residue A p vec i) = true} i ∧
        sampleSoftmax A CharCount p vec = (i : Int)) ∨
      ((¬ ∃ i : Nat, i < vec.length ∧ A.ltZero (residue A p vec i) = true) ∧
        sampleSoftmax A CharCount p vec = (CharCount : Int) - 1) := by
  rcases sampleSoftmaxLoop_spec A vec 0 p with ⟨m, h1, h2, h3, h4⟩ | ⟨h1, h2⟩
  · left
    refine ⟨m, ⟨⟨h2, h3⟩, ?_⟩, ?_⟩
    · intro j hj
      by_contra hlt
      have := h4 j (by omega)
      rw [hj.2] at this
      exact Bool.noConfusion this
    · simp [sampleSoftmax, h1]
  · right
    refine ⟨?_, by simp [sampleSoftmax, h1]⟩
    rintro ⟨i, hi, hneg⟩
    have := h2 i hi
    rw [hneg] at this
    exact Bool.noConfusion this

/-- C5 fails as stated. With the log-probabilities -40, -0.5 and -1 and the
draw `p = exp(-0.5)` (a float64 in `[1/2, 1)`, hence a multiple of `2^-53`), the
least index `i` with `p - (q[0] + ... + q[i]) < 0` is 1, as
`p - q[0] - q[1] = -q[0]`; but in float64 `p - q[0]` rounds to `p`, since
`q[0] = exp(-40)` is below `2^-54`, the running value after index 1 is `0`,
which is not negative, and `sampleSoftmax` returns 2. All values are in units
of `2^-1074`, which does not change the sign of a difference. -/
theorem sampleSoftmax_rounding_skips_index :
    sampleSoftmax (float64Ops expTable) 3 (dyadic 2731571253070597 52)
        [dyadic (-40) 0, dyadic (-1) 1, dyadic (-1) 0] = 2 ∧
      IsLeast {i : Nat | i < 3 ∧
        dyadic 2731571253070597 52 -
          cumulative ([dyadic (-40) 0, dyadic (-1) 1, dyadic (-1) 0].map expTable) i < 0} 1 := by
  have e0 : expTable (dyadic (-40) 0) = dyadic 1378669778355849 108 := by decide
  have e1 : expTable (dyadic (-1) 1) = dyadic 2731571253070597 52 := by decide
  have e2 : expTable (dyadic (-1) 0) = dyadic 828390857088487 51 := by decide
  have s0 : (float64Ops expTable).sub (dyadic 2731571253070597 52)
      ((float64Ops expTable).exp (dyadic (-40) 0)) = dyadic 2731571253070597 52 := by
    rw [float64Ops_step, e0, round53_of_bounds _ 1073 (by decide) (by decide)]
    decide
  have s1 : (float64Ops expTable).sub (dyadic 2731571253070597 52)
      ((float64Ops expTable).exp (dyadic (-1) 1)) = 0 := by
    rw [float64Ops_step, e1, sub_self, round53_zero]
  have s2 : (float64Ops expTable).sub 0
      ((float64Ops expTable).exp (dyadic (-1) 0)) = dyadic (-828390857088487) 51 := by
    rw [float64Ops_step, e2, round53_of_bounds _ 1072 (by decide) (by decide)]
    decide
  refine ⟨?_, ⟨by decide, ?_⟩, ?_⟩
  · rw [sampleSoftmax,
      sampleSoftmaxLoop_cons_nonneg _ _ _ _ _ (by rw [s0, float64Ops_ltZero]; decide), s0,
      sampleSoftmaxLoop_cons_nonneg _ _ _ _ _ (by rw [s1, float64Ops_ltZero]; decide), s1,
      sampleSoftmaxLoop_cons_neg _ _ _ _ _ (by rw [s2, float64Ops_ltZero]; decide)]
    rfl
  · simp only [List.map_cons, List.map_nil, e0, e1, e2, cumulative]
    decide
  · rintro j ⟨_, hj⟩
    by_contra hlt
    have hj0 : j = 0 := by omega
    subst hj0
    simp only [List.map_cons, List.map_nil, e0, e1, e2, cumulative] at hj
    revert hj
    decide

/-- C6. For every index `k < V` and every drawn value `p` in `[0, 1)`, when the
distribution has probability 1 at index `k` and probability 0 at every other
index, `sampleSoftmax` returns `k`. The arithmetic is exact: the subtractions of
this case, `p - 0` and `p - 1`, do not round in float64 either. -/
theorem sampleSoftmax_concentrated {K : Type} [LinearOrderedField K] (exp : K → K)
    (CharCount k : Nat) (p : K) (vec : List K) (hk : k < CharCount)
    (hp0 : 0 ≤ p) (hp1 : p < 1) (hq : vec.map exp = oneHot CharCount k) :
    sampleSoftmax (exactOps exp) CharCount p vec = (k : Int) := by
  have h := sampleSoftmaxLoop_concentrated exp vec 0 k p (fun j hj => by
    rw [hq, oneHot_getElem? CharCount k j (by omega)]) hp0 hp1
  simp [sampleSoftmax, h]

/-- With three characters, all the mass on index 1 and the draw 1/2, the
sampler returns 1. -/
theorem sampleSoftmax_concentrated_witness :
    (1 < 3) ∧ ((0 : ℚ) ≤ 1 / 2) ∧ ((1 / 2 : ℚ) < 1) ∧
    (([0, 1, 0] : List ℚ).map id = oneHot 3 1) ∧
    sampleSoftmax (exactOps (id : ℚ → ℚ)) 3 (1 / 2) [0, 1, 0] = ((1 : Nat) : Int) :=
  ⟨by decide, by norm_num, by norm_num, by simp [oneHot, List.range_succ],
    sampleSoftmax_concentrated id 3 1 (1 / 2) [0, 1, 0] (by decide) (by norm_num) (by norm_num)
      (by simp [oneHot, List.range_succ])⟩

/-- C10, as the code has it. For every vector of `V = CharCount ≥ 1`
log-probabilities and every drawn `p` that is not negative, `sampleSoftmax`
returns an index `i` with `0 ≤ i < V`, so that the store `v[ch] = 1` of
`Generate` is in range; and either it returns from inside its loop, and then
`q[i] = exp vec[i]` is positive, or it reaches its fallback return and gives
`V - 1`. The subtraction is any for which, as for that of float64, `q` is
positive whenever `r` is not negative and `r - q` is. -/
theorem sampleSoftmax_index_in_range {F : Type} (A : FloatOps F) (pos : F → Prop)
    (CharCount : Nat) (p : F) (vec : List F) (hlen : vec.length = CharCount)
    (hV : 0 < CharCount) (hp : A.ltZero p = false)
    (hsign : ∀ r q : F, A.ltZero r = false → A.ltZero (A.sub r q) = true → pos q) :
    (0 ≤ sampleSoftmax A CharCount p vec ∧
        sampleSoftmax A CharCount p vec < (CharCount : Int)) ∧
      ((∃ (i : Nat) (x : F), sampleSoftmaxLoop A 0 p vec = some i ∧
          sampleSoftmax A CharCount p vec = (i : Int) ∧ i < CharCount ∧
          vec[i]? = some x ∧ pos (A.exp x)) ∨
        (sampleSoftmaxLoop A 0 p vec = none ∧
          sampleSoftmax A CharCount p vec = (CharCount : Int) - 1)) := by
  refine ⟨sampleSoftmax_range A CharCount p vec hV (by omega), ?_⟩
  rcases sampleSoftmaxLoop_spec A vec 0 p with ⟨m, h1, h2, h3, h4⟩ | ⟨h1, _⟩
  · left
    rw [Nat.zero_add] at h1
    refine ⟨m, vec.get ⟨m, h2⟩, h1, by simp [sampleSoftmax, h1], by omega,
      List.getElem?_eq_getElem h2, ?_⟩
    rw [residue_eq_sub A p vec m h2] at h3
    refine hsign _ _ ?_ h3
    cases m with
    | zero => simpa using hp
    | succ j => exact h4 j (by omega)
  · right
    exact ⟨h1, by simp [sampleSoftmax, h1]⟩

/-- In float64, with the log-probabilities -40, -0.5 and -1 and the draw
`exp(-0.5)`, the index returned is inside the loop and in range. -/
theorem sampleSoftmax_index_in_range_witness :
    (([dyadic (-40) 0, dyadic (-1) 1, dyadic (-1) 0] : List Int).length = 3) ∧ (0 < 3) ∧
    ((float64Ops expTable).ltZero (dyadic 2731571253070597 52) = false) ∧
    (∀ r q : Int, (float64Ops expTable).ltZero r = false →
      (float64Ops expTable).ltZero ((float64Ops expTable).sub r q) = true → 0 < q) ∧
    ((0 ≤ sampleSoftmax (float64Ops expTable) 3 (dyadic 2731571253070597 52)
          [dyadic (-40) 0, dyadic (-1) 1, dyadic (-1) 0] ∧
        sampleSoftmax (float64Ops expTable) 3 (dyadic 2731571253070597 52)
          [dyadic (-40) 0, dyadic (-1) 1, dyadic (-1) 0] < ((3 : Nat) : Int)) ∧
      ((∃ (i : Nat) (x : Int), sampleSoftmaxLoop (float64Ops expTable) 0
            (dyadic 2731571253070597 52) [dyadic (-40) 0, dyadic (-1) 1, dyadic (-1) 0] = some i ∧
          sampleSoftmax (float64Ops expTable) 3 (dyadic 2731571253070597 52)
            [dyadic (-40) 0, dyadic (-1) 1, dyadic (-1) 0] = (i : Int) ∧ i < 3 ∧
          ([dyadic (-40) 0, dyadic (-1) 1, dyadic (-1) 0] : List Int)[i]? = some x ∧
          0 < (float64Ops expTable).exp x) ∨
        (sampleSoftmaxLoop (float64Ops expTable) 0 (dyadic 2731571253070597 52)
            [dyadic (-40) 0, dyadic (-1) 1, dyadic (-1) 0] = none ∧
          sampleSoftmax (float64Ops expTable) 3 (dyadic 2731571253070597 52)
            [dyadic (-40) 0, dyadic (-1) 1, dyadic (-1) 0] = ((3 : Nat) : Int) - 1))) :=
  ⟨rfl, by decide, by rw [float64Ops_ltZero]; decide, float64Ops_sign expTable,
    sampleSoftmax_index_in_range (float64Ops expTable) (fun q => 0 < q) 3
      (dyadic 2731571253070597 52) [dyadic (-40) 0, dyadic (-1) 1, dyadic (-1) 0] rfl
      (by decide) (by rw [float64Ops_ltZero]; decide) (float64Ops_sign expTable)⟩

/-- C10 fails as stated. The five log-probabilities below are float32 values
whose float64 exponentials are not negative and sum to exactly 1, the last
being `exp(-1000) = 0`, and `p = 1 - 2^-53` is in `[0, 1)`; the running values
of `sampleSoftmax` are rounded at each of the first three subtractions and end
at `0`, which is not negative, so that the loop runs to its end and the
fallback returns index 4, a character of probability 0. -/
theorem sampleSoftmax_rounding_reaches_fallback :
    (([dyadic (-11061249) 19, dyadic (-5459523) 18, dyadic (-11094607) 19,
        dyadic (-10065557) 52, dyadic (-1000) 0].map expTable).sum = dyadic 1 0) ∧
    (∀ q ∈ [dyadic (-11061249) 19, dyadic (-5459523) 18, dyadic (-11094607) 19,
        dyadic (-10065557) 52, dyadic (-1000) 0].map expTable, 0 ≤ q) ∧
    (0 ≤ dyadic 9007199254740991 53 ∧ dyadic 9007199254740991 53 < dyadic 1 0) ∧
    sampleSoftmaxLoop (float64Ops expTable) 0 (dyadic 9007199254740991 53)
      [dyadic (-11061249) 19, dyadic (-5459523) 18, dyadic (-11094607) 19,
        dyadic (-10065557) 52, dyadic (-1000) 0] = none ∧
    sampleSoftmax (float64Ops expTable) 5 (dyadic 9007199254740991 53)
      [dyadic (-11061249) 19, dyadic (-5459523) 18, dyadic (-11094607) 19,
        dyadic (-10065557) 52, dyadic (-1000) 0] = 4 ∧
    ([dyadic (-11061249) 19, dyadic (-5459523) 18, dyadic (-11094607) 19,
        dyadic (-10065557) 52, dyadic (-1000) 0].map expTable)[4]? = some 0 := by
  have e0 : expTable (dyadic (-11061249) 19) = dyadic 6651094544064039 83 := by decide
  have e1 : expTable (dyadic (-5459523) 18) = dyadic 8723426708166561 83 := by decide
  have e2 : expTable (dyadic (-11094607) 19) = dyadic 780137226660167 80 := by decide
  have e3 : expTable (dyadic (-10065557) 52) = dyadic 4503599617304939 52 := by decide
  have e4 : expTable (dyadic (-1000) 0) = 0 := by decide
  have s0 : (float64Ops expTable).sub (dyadic 9007199254740991 53)
      ((float64Ops expTable).exp (dyadic (-11061249) 19)) = dyadic 9007199248546677 53 := by
    rw [float64Ops_step, e0, round53_of_bounds _ 1073 (by decide) (by decide)]
    decide
  have s1 : (float64Ops expTable).sub (dyadic 9007199248546677 53)
      ((float64Ops expTable).exp (dyadic (-5459523) 18)) = dyadic 9007199240422353 53 := by
    rw [float64Ops_step, e1, round53_of_bounds _ 1073 (by decide) (by decide)]
    decide
  have s2 : (float64Ops expTable).sub (dyadic 9007199240422353 53)
      ((float64Ops expTable).exp (dyadic (-11094607) 19)) = dyadic 4503599617304939 52 := by
    rw [float64Ops_step, e2, round53_of_bounds _ 1073 (by decide) (by decide)]
    decide
  have s3 : (float64Ops expTable).sub (dyadic 4503599617304939 52)
      ((float64Ops expTable).exp (dyadic (-10065557) 52)) = 0 := by
    rw [float64Ops_step, e3, sub_self, round53_zero]
  have s4 : (float64Ops expTable).sub 0 ((float64Ops expTable).exp (dyadic (-1000) 0)) = 0 := by
    rw [float64Ops_step, e4, sub_self, round53_zero]
  have hloop : sampleSoftmaxLoop (float64Ops expTable) 0 (dyadic 9007199254740991 53)
      [dyadic (-11061249) 19, dyadic (-5459523) 18, dyadic (-11094607) 19,
        dyadic (-10065557) 52, dyadic (-1000) 0] = none := by
    rw [sampleSoftmaxLoop_cons_nonneg _ _ _ _ _ (by rw [s0, float64Ops_ltZero]; decide), s0,
      sampleSoftmaxLoop_cons_nonneg _ _ _ _ _ (by rw [s1, float64Ops_ltZero]; decide), s1,
      sampleSoftmaxLoop_cons_nonneg _ _ _ _ _ (by rw [s2, float64Ops_ltZero]; decide), s2,
      sampleSoftmaxLoop_cons_nonneg _ _ _ _ _ (by rw [s3, float64Ops_ltZero]; decide), s3,
      sampleSoftmaxLoop_cons_nonneg _ _ _ _ _ (by rw [s4, float64Ops_ltZero]; decide), s4]
    rfl
  refine ⟨?_, ?_, ⟨by decide, by decide⟩, hloop, ?_, ?_⟩
  · simp only [List.map_cons, List.map_nil, e0, e1, e2, e3, e4]
    decide
  · simp only [List.map_cons, List.map_nil, e0, e1, e2, e3, e4]
    decide
  · rw [sampleSoftmax, hloop]
    rfl
  · simp only [List.map_cons, List.map_nil, e4]
    rfl

/-- C8, as the code has it. For every step function whose output vectors have
at most `V = CharCount` entries, with `V ≥ 1`, every start state, every stream
of drawn values and every length `n ≥ 0`: `Generate` does not panic, calls the
step function exactly `n` times and writes exactly `n` characters (followed by
the line feed of the closing `Println`), each the byte of the index sampled
from the output of the corresponding call; the first call gets the start
state; each later call gets the state the previous call returned and the
one-hot vector of the index sampled before; the run depends on the stream
only through its first `n` values; and for `n = 0` no character is written
and the step function is not called. -/
theorem Generate_run {σ F : Type} [Zero F] [One F] (A : FloatOps F) (CharCount : Nat)
    (Step : σ → List F → List F × σ) (start : σ) (rnd : Nat → F) (n : Nat)
    (hCC : 0 < CharCount) (hStep : ∀ s x, (Step s x).1.length ≤ CharCount) :
    ∃ (tr : GenTrace σ F) (chars : List Byte),
      Generate A CharCount Step start rnd (n : Int) = tr ∧
      tr.panicked = false ∧ tr.calls.length = n ∧
      tr.printed = chars ++ [10] ∧ chars.length = n ∧
      (∀ i : Nat, i < n → ∃ (s : σ) (x : List F), tr.calls[i]? = some (s, x) ∧
        chars[i]? = some (byteOfInt (sampleSoftmax A CharCount (rnd i) (Step s x).1))) ∧
      (0 < n → ∃ x : List F, tr.calls[0]? = some (start, x)) ∧
      (∀ i : Nat, i + 1 < n → ∃ (s : σ) (x : List F), tr.calls[i]? = some (s, x) ∧
        tr.calls[i + 1]? = some ((Step s x).2,
          oneHot CharCount (sampleSoftmax A CharCount (rnd i) (Step s x).1).toNat)) ∧
      (∀ rnd2 : Nat → F, (∀ i : Nat, i < n → rnd2 i = rnd i) →
        Generate A CharCount Step start rnd2 (n : Int) = tr) ∧
      (n = 0 → tr.calls = [] ∧ chars = []) := by
  refine ⟨_, (List.range n).map (fun j => byteOfInt (genSample A CharCount Step start rnd j)),
    Generate_eq A CharCount Step start rnd hCC hStep n, rfl, by simp, rfl, by simp,
    ?_, ?_, ?_, ?_, ?_⟩
  · intro i hi
    refine ⟨(genCall A CharCount Step start rnd i).1,
      (genCall A CharCount Step start rnd i).2, ?_, ?_⟩
    · simp [List.getElem?_range hi]
    · simp [List.getElem?_range hi, genSample]
  · intro hn
    exact ⟨List.replicate CharCount 0, by simp [List.getElem?_range hn, genCall]⟩
  · intro i hi
    refine ⟨(genCall A CharCount Step start rnd i).1,
      (genCall A CharCount Step start rnd i).2, ?_, ?_⟩
    · simp [List.getElem?_range (show i < n by omega)]
    · simp [List.getElem?_range hi, genCall_succ, genSample, replicate_set_eq_oneHot]
  · intro rnd2 h
    have hp : (List.range n).map
          (fun j => byteOfInt (genSample A CharCount Step start rnd2 j)) =
        (List.range n).map (fun j => byteOfInt (genSample A CharCount Step start rnd j)) := by
      apply List.map_congr_left
      intro j hj
      rw [genSample_congr A CharCount Step start rnd rnd2 j
        (fun m hm => h m (by have := List.mem_range.1 hj; omega))]
    have hc : (List.range n).map (genCall A CharCount Step start rnd2) =
        (List.range n).map (genCall A CharCount Step start rnd) := by
      apply List.map_congr_left
      intro j hj
      exact genCall_congr A CharCount Step start rnd rnd2 j
        (fun m hm => h m (by have := List.mem_range.1 hj; omega))
    rw [Generate_eq A CharCount Step start rnd2 hCC hStep n, hp, hc]
  · intro hn
    subst hn
    simp

/-- A run of three steps over two characters with constant output
probabilities 1/4 and 3/4. -/
theorem Generate_run_witness :
    ((0 : Nat) < 2) ∧
    (∀ (s : Nat) (x : List ℚ), ((fun (s : Nat) (_ : List ℚ) => (([1 / 4, 3 / 4] : List ℚ), s + 1)) s x).1.length ≤ 2) ∧
    (∃ (tr : GenTrace Nat ℚ) (chars : List Byte),
      Generate (exactOps (id : ℚ → ℚ)) 2 (fun s _ => ([1 / 4, 3 / 4], s + 1)) 0 (fun _ => 1 / 2) ((3 : Nat) : Int) = tr ∧
      tr.panicked = false ∧ tr.calls.length = 3 ∧
      tr.printed = chars ++ [10] ∧ chars.length = 3) :=
  ⟨by decide, fun _ _ => by simp,
    (Generate_run (exactOps (id : ℚ → ℚ)) 2 (fun s _ => ([1 / 4, 3 / 4], s + 1)) 0 (fun _ => 1 / 2) 3
      (by decide) (fun _ _ => by simp)).imp fun _ h => h.imp fun _ h =>
        ⟨h.1, h.2.1, h.2.2.1, h.2.2.2.1, h.2.2.2.2.1⟩⟩

/-- C8 fails as stated: with `CharCount = 2` and a step function whose output
has three entries, the third of probability 1, `Generate` asked for two
characters samples the index 2, writes one byte and panics in `v[ch] = 1`. -/
theorem Generate_long_output_panics :
    Generate (exactOps (id : ℚ → ℚ)) 2 (fun (s : Unit) (_ : List ℚ) => (([0, 0, 1] : List ℚ), s)) ()
        (fun _ => 1 / 2) 2 =
      { printed := [2], calls := [((), [0, 0])], panicked := true } := by
  simp [Generate, GenerateLoop, sampleSoftmax, sampleSoftmaxLoop, exactOps, byteOfInt]
  norm_num
  rfl

/-- C7, evaluated on the code. The input of the first call of the step function
in `Generate` is the zeroed vector `anyvec32.MakeVector(CharCount)`; for
`CharCount ≥ 1` that is not the sentinel one-hot vector, which has `1` at index
0 and is the first input `seqForChunk` gives a training sequence. -/
theorem Generate_first_input_zero {σ K : Type} [LinearOrderedField K] (A : FloatOps K)
    (CharCount : Nat) (Step : σ → List K → List K × σ) (start : σ) (rnd : Nat → K) (n : Nat) :
    (Generate A CharCount Step start rnd ((n : Int) + 1)).calls.head? =
        some (start, List.replicate CharCount 0) ∧
      (0 < CharCount → List.replicate CharCount (0 : K) ≠ oneHot CharCount 0) ∧
      (seqForChunk [97]).map (fun s => s.Inputs.head?) =
        some (some (oneHot ASCIICount 0)) := by
  refine ⟨?_, ?_, ?_⟩
  · have hn : ((n : Int) + 1).toNat = n + 1 := by omega
    have hpre : ([] ++ [(start, List.replicate CharCount (0 : K))] : List (σ × List K)) <+:
        (GenerateLoop A CharCount Step rnd (n + 1) 0 start (List.replicate CharCount 0)
          { printed := [], calls := [], panicked := false }).calls := by
      simp only [GenerateLoop]
      split_ifs with h
      · exact GenerateLoop_calls A CharCount Step rnd _ _ _ _ ⟨_, _, _⟩
      · exact List.prefix_refl _
    obtain ⟨t, ht⟩ := hpre
    simp only [Generate, hn]
    split_ifs <;> simp [← ht]
  · intro hpos h
    have h0 := congrArg (fun l => l[0]?) h
    simp only [oneHot_getElem? CharCount 0 0 hpos] at h0
    simp [hpos] at h0
  · rw [seqForChunk_eq _ (by simp [ASCIICount]; decide)]
    rfl

end CharRnn
